/-
Verification of the fuzzy edit engine, HITL registry, artifact dispatcher
and workflow nodes of the base_library_backend repository.

The Python sources are embedded shallowly:
* text is `List Char` (`Str` below); Python slices `s[:i]`, `s[i:]` become
  `List.take` / `List.drop`;
* machine floats used for similarity scores and thresholds are embedded as
  exact rationals `ℚ` (the code only ever compares the exact constants
  0.0 and 1.0, produced by exact arithmetic on small integers);
* fallible calls (`model.ainvoke`, JSON parsing) are passed in as `Except`
  valued oracles;
* mutable per-thread dictionaries become association lists threaded through
  explicit state.
-/
import Mathlib

namespace BaseLibrary

/-- Text, embedded as a list of characters (Python `str`). -/
abbrev Str := List Char

/-! ## `html.unescape` (Python stdlib, called by `_normalize_text`)

Modelled from the spec: `_normalize_text` in `src/core/nodes/edit_material.py`
calls the stdlib `html.unescape`, whose code is not part of the repository;
the spec describes it as "decode HTML entities" with the examples
`&#39; → '`, `&amp; → &`, `&quot; → "`.  The model replaces a character
reference at each `&` and leaves every other character (and every `&` that
does not start a reference in the table) unchanged, exactly as the stdlib
does; the reference table is restricted to the named references the
repository's docstrings mention.  Each rule consumes the reference and
continues scanning after it, so a doubly escaped reference (e.g.
`&amp;amp;`) decodes only one level per pass, as in the stdlib. -/
def unescape : Str → Str
  | [] => []
  | c :: rest =>
    if c = '&' then
      match rest with
      | 'a' :: 'm' :: 'p' :: ';' :: rest' => '&' :: unescape rest'
      | 'l' :: 't' :: ';' :: rest' => '<' :: unescape rest'
      | 'g' :: 't' :: ';' :: rest' => '>' :: unescape rest'
      | 'q' :: 'u' :: 'o' :: 't' :: ';' :: rest' => '"' :: unescape rest'
      | 'a' :: 'p' :: 'o' :: 's' :: ';' :: rest' => '\'' :: unescape rest'
      | '#' :: '3' :: '9' :: ';' :: rest' => '\'' :: unescape rest'
      | 'n' :: 'b' :: 's' :: 'p' :: ';' :: rest' => '\xA0' :: unescape rest'
      | r => '&' :: unescape r
    else c :: unescape rest

/-! ## `_normalize_text` (src/core/nodes/edit_material.py, lines 49-79) -/

/-- `normalized.replace('\r\n', '\n')`: first line-ending pass. -/
def crlfToLf : Str → Str
  | [] => []
  | '\r' :: '\n' :: rest => '\n' :: crlfToLf rest
  | c :: rest => c :: crlfToLf rest

/-- `normalized.replace('\r', '\n')`: second line-ending pass. -/
def crToLf (s : Str) : Str := s.map (fun c => if c = '\r' then '\n' else c)

/-- `normalized.split('\n')` (Python `str.split` with explicit separator:
always at least one piece, empty pieces kept). -/
def splitLines : Str → List Str
  | [] => [[]]
  | '\n' :: rest => [] :: splitLines rest
  | c :: rest =>
    match splitLines rest with
    | l :: ls => (c :: l) :: ls
    | [] => [[c]]

/-- `'\n'.join(normalized_lines)`. -/
def joinLines : List Str → Str
  | [] => []
  | [l] => l
  | l :: ls => l ++ '\n' :: joinLines ls

/-- Characters of the class `[ \t]` in `re.sub(r'[ \t]+', ' ', line)`. -/
def isSpaceTab (c : Char) : Bool := c = ' ' || c = '\t'

/-- `re.sub(r'[ \t]+', ' ', line)`: every maximal run of spaces/tabs becomes
one space (the run contributes its final character, rewritten to `' '`). -/
def collapseWS : Str → Str
  | [] => []
  | [c] => if isSpaceTab c then [' '] else [c]
  | a :: b :: rest =>
    if isSpaceTab a then
      if isSpaceTab b then collapseWS (b :: rest)
      else ' ' :: collapseWS (b :: rest)
    else a :: collapseWS (b :: rest)

/-- The whitespace class of Python `str.strip`/`str.rstrip` with no
argument (`str.isspace` characters occurring in this code base). -/
def isPySpace (c : Char) : Bool :=
  c = ' ' || c = '\t' || c = '\n' || c = '\r' || c = '\x0b' || c = '\x0c' || c = '\xA0'

/-- `line.rstrip()`. -/
def rstrip (s : Str) : Str := (s.reverse.dropWhile isPySpace).reverse

/-- `str.strip()` (used by `SecurityGuard._fuzzy_remove`). -/
def pyStrip (s : Str) : Str := rstrip (s.dropWhile isPySpace)

/-- Per-line processing in `_normalize_text`: collapse runs of spaces/tabs,
then remove trailing whitespace. -/
def normalizeLine (line : Str) : Str := rstrip (collapseWS line)

/-- `EditMaterialNode._normalize_text` (src/core/nodes/edit_material.py,
lines 49-79): HTML-unescape, CRLF/CR → LF, collapse intra-line space/tab
runs to one space, strip trailing whitespace per line. -/
def normalizeText (text : Str) : Str :=
  if text = [] then text
  else
    joinLines (List.map normalizeLine (splitLines (crToLf (crlfToLf (unescape text)))))

/-! ## `_find_original_position` (src/core/nodes/edit_material.py, lines 187-225) -/

/-- The `for i, char in enumerate(original)` walk of
`_find_original_position`.  For each character of the original the loop
computes `html.unescape(char)`, which for a single character is that
character itself (a reference needs at least three characters), so the
walk counts every character — newline or not — as one normalized
character, and returns the first index `i` whose running count reaches
`normalized_pos`. -/
def findOrigLoop (pos : Nat) : Str → Nat → Nat → Option Nat
  | [], _, _ => none
  | _ :: rest, i, normLen =>
    let normLen' := normLen + 1
    if pos ≤ normLen' then some i else findOrigLoop pos rest (i + 1) normLen'

/-- `EditMaterialNode._find_original_position`: maps an offset in the
normalized text back to an offset in the original text.  (The source also
computes `orig_normalized = self._normalize_text(original)` and never uses
it; that dead computation is omitted.) -/
def findOriginalPosition (original normalized : Str) (normalizedPos : Nat) : Nat :=
  if normalized.length ≤ normalizedPos then original.length
  else if normalizedPos = 0 then 0
  else
    match findOrigLoop normalizedPos original 0 0 with
    | some i => i
    | none => original.length

/-- Python `sub in s` / `s.index(sub)`: index of the first occurrence of
`pat` as a contiguous substring, if any. -/
def firstOccIdx (pat : Str) : Str → Option Nat
  | [] => if pat.isPrefixOf ([] : Str) then some 0 else none
  | c :: rest =>
    if pat.isPrefixOf (c :: rest) then some 0
    else (firstOccIdx pat rest).map (· + 1)

/-! ## `fuzzysearch.find_near_matches` (external library)

Modelled from the spec: the repository calls `find_near_matches(target,
text, max_l_dist=d)` from the external `fuzzysearch` package (not part of
the sources); the spec describes the call as "Search for the best
approximate match of the normalized target inside the normalized document
within that distance".  The model returns the best (minimal Levenshtein
distance, earliest) substring match within `maxDist`, or `none`; the
source always uses `matches[0]`, which the model returns directly. -/

/-- Levenshtein edit distance between two character lists. -/
def lev : Str → Str → Nat
  | [], ys => ys.length
  | xs, [] => xs.length
  | x :: xs, y :: ys =>
    if x = y then lev xs ys
    else 1 + min (lev xs ys) (min (lev (x :: xs) ys) (lev xs (y :: ys)))
termination_by xs ys => xs.length + ys.length

/-- `text[i:j]` (Python slice). -/
def seg (text : Str) (i j : Nat) : Str := (text.drop i).take (j - i)

/-- All substring spans `(i, j)` with `i ≤ j ≤ n`. -/
def spans (n : Nat) : List (Nat × Nat) :=
  (List.range (n + 1)).flatMap fun i => (List.range (n + 1 - i)).map fun k => (i, i + k)

/-- A match as returned by `fuzzysearch`: start/end offsets, edit
distance, and the matched slice of the searched text. -/
structure FMatch where
  start : Nat
  stop : Nat
  dist : Nat
  matched : Str
deriving DecidableEq

/-- All spans of `text` whose slice is within `maxDist` edits of `pat`. -/
def nearCandidates (pat text : Str) (maxDist : Nat) : List FMatch :=
  (spans text.length).filterMap fun p =>
    let d := lev pat (seg text p.1 p.2)
    if d ≤ maxDist then some ⟨p.1, p.2, d, seg text p.1 p.2⟩ else none

/-- First candidate of minimal distance. -/
def pickBest (l : List FMatch) : Option FMatch :=
  l.foldl
    (fun acc c =>
      match acc with
      | none => some c
      | some b => if c.dist < b.dist then some c else some b)
    none

/-- The best approximate occurrence of `pat` in `text` within `maxDist`
edits (`find_near_matches(...)[0]` of the source), or `none` when the
library returns no matches. -/
def findNearMatch (pat text : Str) (maxDist : Nat) : Option FMatch :=
  pickBest (nearCandidates pat text maxDist)

/-! ## `fuzzy_find_and_replace` (src/core/nodes/edit_material.py, lines 81-185) -/

/-- Python `int(...)` on a rational value: truncation toward zero. -/
def pyInt (q : ℚ) : ℤ := if 0 ≤ q then ⌊q⌋ else -⌊-q⌋

/-- The `max_distance` computation of `fuzzy_find_and_replace`
(src/core/nodes/edit_material.py, lines 124-134), as a function of the
normalized target length:
`max_distance = max(1, int(len(normalized_target) * (1 - threshold)))`,
then `min(max_distance, 100)` for lengths over 1000, and
`max(max_distance, min(int(len * 0.01), 50))` for lengths over 100. -/
def maxLDist (ntLen : Nat) (threshold : ℚ) : Nat :=
  let base : ℤ := max 1 (pyInt ((ntLen : ℚ) * (1 - threshold)))
  if 1000 < ntLen then (min base 100).toNat
  else if 100 < ntLen then (max base (min (pyInt ((ntLen : ℚ) * (1 / 100))) 50)).toNat
  else base.toNat

/-- The tuple `(new_document, success, found_text, similarity)` returned
by `fuzzy_find_and_replace`. -/
structure FuzzyResult where
  newDocument : Str
  success : Bool
  foundText : Option Str
  similarity : ℚ
deriving DecidableEq

/-- `EditMaterialNode.fuzzy_find_and_replace` (src/core/nodes/edit_material.py,
lines 81-185).  The `try/except` around each `find_near_matches` call
returns the failure tuple on a library exception; the embedded search is
total, so only the non-exceptional paths remain. -/
def fuzzyFindAndReplace (document target replacement : Str)
    (threshold : ℚ := 17 / 20) : FuzzyResult :=
  if target = [] ∨ document = [] then ⟨document, false, none, 0⟩
  else
    let normalizedReplacement := normalizeText replacement
    let normalizedDocument := normalizeText document
    let normalizedTarget := normalizeText target
    if target.length < 10 then
      match firstOccIdx normalizedTarget normalizedDocument with
      | some idx =>
        -- `if orig_idx >= 0` of the source always holds: the mapping
        -- returns 0, a loop index, or `len(original)`.
        let origIdx := findOriginalPosition document normalizedDocument idx
        ⟨document.take origIdx ++ normalizedReplacement
            ++ document.drop (origIdx + target.length),
          true, some target, 1⟩
      | none =>
        match firstOccIdx target document with
        | some idx =>
          ⟨document.take idx ++ normalizedReplacement
              ++ document.drop (idx + target.length),
            true, some target, 1⟩
        | none => ⟨document, false, none, 0⟩
    else
      let maxDistance := maxLDist normalizedTarget.length threshold
      match findNearMatch normalizedTarget normalizedDocument maxDistance with
      | none =>
        -- fallback: retry on the un-normalized text
        match findNearMatch target document maxDistance with
        | none => ⟨document, false, none, 0⟩
        | some m =>
          let similarity :=
            if 0 < target.length then max 0 (1 - (m.dist : ℚ) / (target.length : ℚ))
            else if m.dist = 0 then 1 else 0
          ⟨document.take m.start ++ normalizedReplacement ++ document.drop m.stop,
            true, some m.matched, similarity⟩
      | some m =>
        let similarity :=
          if 0 < normalizedTarget.length then
            max 0 (1 - (m.dist : ℚ) / (normalizedTarget.length : ℚ))
          else if m.dist = 0 then 1 else 0
        let origStart := findOriginalPosition document normalizedDocument m.start
        let origEnd := findOriginalPosition document normalizedDocument m.stop
        if origStart ≤ origEnd then
          ⟨document.take origStart ++ normalizedReplacement ++ document.drop origEnd,
            true, some (seg document origStart origEnd), similarity⟩
        else
          ⟨document.take m.start ++ normalizedReplacement ++ document.drop m.stop,
            true, some m.matched, similarity⟩

/-! ## `SecurityGuard` (src/core/security/guard.py) -/

/-- Result of the injection-detection model call
(`InjectionResult` in src/core/security/guard.py): `_parse_response`
always produces one of these, falling back to "no injection" on a JSON
parse failure. -/
structure InjectionResult where
  has_injection : Bool
  injection_text : Str
deriving DecidableEq

/-- The `max_distance` computation of `SecurityGuard._fuzzy_remove`
(src/core/security/guard.py, lines 130-135):
`max(1, int(len(target) * (1 - fuzzy_threshold)))`, then
`min(max_distance, 15)` for targets over 100 characters. -/
def removeMaxDist (targetLen : Nat) (threshold : ℚ) : Nat :=
  let base : ℤ := max 1 (pyInt ((targetLen : ℚ) * (1 - threshold)))
  if 100 < targetLen then (min base 15).toNat else base.toNat

/-- `SecurityGuard._fuzzy_remove` (src/core/security/guard.py, lines
113-151): removal-only fuzzy matching.  `document.replace(target, "", 1)`
removes the first exact occurrence; the `try/except` around
`find_near_matches` yields `none` on a library exception (the embedded
search is total). -/
def fuzzyRemove (threshold : ℚ) (document target : Str) : Option Str :=
  if target = [] ∨ document = [] then none
  else if target.length < 10 then
    match firstOccIdx target document with
    | some i => some (pyStrip (document.take i ++ document.drop (i + target.length)))
    | none => none
  else
    let maxDistance := removeMaxDist target.length threshold
    match findNearMatch target document maxDistance with
    | none => none
    | some m =>
      let cleaned := pyStrip (document.take m.start ++ document.drop m.stop)
      if cleaned = [] then none else some cleaned

/-- `SecurityGuard.validate_and_clean` (src/core/security/guard.py, lines
33-73).  The model call plus `_parse_response` is passed in as the oracle
`detect`; `.error ()` stands for any exception raised inside the `try`
block, which the outer handler turns into "return the original text". -/
def validateAndClean (detect : Str → Except Unit InjectionResult)
    (threshold : ℚ) (text : Str) : Str :=
  if pyStrip text = [] then text
  else
    match detect text with
    | .error _ => text
    | .ok r =>
      if r.has_injection && !(pyStrip r.injection_text = []) then
        match fuzzyRemove threshold text r.injection_text with
        | some cleaned => if cleaned ≠ [] ∧ cleaned ≠ text then cleaned else text
        | none => text
      else text

/-! ## Workflow state (src/core/core/state.py) -/

/-- A role-tagged message (`SystemMessage` / `HumanMessage` / `AIMessage`). -/
inductive Msg where
  | system (content : Str)
  | human (content : Str)
  | ai (content : Str)
deriving DecidableEq

/-- `GeneralState` (src/core/core/state.py, class `GeneralState`): the
fields the verified claims touch, with the source's defaults.
`questions_and_answers` is declared `Annotated[List[str], operator.add]`
in the source: updates to it are appended, not substituted (see
`applyUpdate`). -/
structure GeneralState where
  input_content : Str := []
  generated_material : Str := []
  synthesized_material : Str := []
  questions : List Str := []
  questions_and_answers : List Str := []
  feedback_messages : List Msg := []
  edit_count : Nat := 0
  needs_user_input : Bool := true
  agent_message : Option Str := none
  last_action : Option Str := none
deriving DecidableEq

/-- A partial state patch, the `update=` dictionary of a LangGraph
`Command`: `none` means the key is absent from the dictionary. -/
structure StateUpdate where
  synthesized_material : Option Str := none
  feedback_messages : Option (List Msg) := none
  edit_count : Option Nat := none
  needs_user_input : Option Bool := none
  agent_message : Option (Option Str) := none
  last_action : Option (Option Str) := none
  questions_and_answers : Option (List Str) := none
deriving DecidableEq

/-- `langgraph.types.Command(goto=..., update=...)`. -/
structure Command where
  goto : Str
  update : StateUpdate := {}
deriving DecidableEq

/-- LangGraph's application of a `Command` patch to the state: plain
fields are overwritten when present in the patch; the
`operator.add`-annotated accumulator `questions_and_answers` is merged by
list concatenation. -/
def applyUpdate (s : GeneralState) (u : StateUpdate) : GeneralState :=
  { s with
    synthesized_material := u.synthesized_material.getD s.synthesized_material
    feedback_messages := u.feedback_messages.getD s.feedback_messages
    edit_count := u.edit_count.getD s.edit_count
    needs_user_input := u.needs_user_input.getD s.needs_user_input
    agent_message := u.agent_message.getD s.agent_message
    last_action := u.last_action.getD s.last_action
    questions_and_answers := s.questions_and_answers ++ u.questions_and_answers.getD [] }

/-- `EditDetails` (src/core/core/state.py): structured edit action. -/
structure EditDetails where
  old_text : Str
  new_text : Str
  continue_editing : Bool := true
deriving DecidableEq

/-! ## `EditMaterialNode.handle_edit_action`
(src/core/nodes/edit_material.py, lines 227-314) -/

/-- `(toString n).data`: decimal rendering of a natural number. -/
def natToStr (n : Nat) : Str := (toString n).data

/-- Rendering of `f"{similarity:.2f}"`.  Python formats the similarity
float with two decimals (rounding the double half-to-even); the embedding
renders `round(q * 100) / 100` with two decimals, which agrees on every
value the code produces exactly (multiples of 1/100) and is immaterial to
every claim (no claim inspects this string). -/
def fmt2f (q : ℚ) : Str :=
  let c : ℤ := round (q * 100)
  let ip := c / 100
  let fp := (c % 100).toNat
  natToStr ip.toNat ++ ('.' :: (if fp < 10 then '0' :: natToStr fp else natToStr fp))

/-- The error text of the not-found branch. -/
def editErrorText : Str :=
  "Could not find the specified text fragment. Please specify which section to remove or change.".data

/-- `EditMaterialNode.handle_edit_action`: applies
`fuzzy_find_and_replace` to the synthesized material and returns the
`Command` the node hands back to LangGraph.  `messages` is the local
message list the caller built from `state.feedback_messages`. -/
def handleEditAction (state : GeneralState) (action : EditDetails)
    (messages : List Msg) : Command :=
  let r := fuzzyFindAndReplace state.synthesized_material action.old_text action.new_text
  if r.success = false then
    { goto := "edit_material".data
      update :=
        { feedback_messages :=
            some (messages ++ [.system ("[EDIT ERROR]: ".data ++ editErrorText)])
          needs_user_input := some true
          agent_message := some (some editErrorText)
          last_action := some (some "edit_error".data) } }
  else
    let editCount := state.edit_count + 1
    let messages' := messages ++
      [.system ("[EDIT SUCCESS #".data ++ natToStr editCount
        ++ "]: Replaced text (similarity: ".data ++ fmt2f r.similarity ++ ")".data)]
    { goto := "edit_material".data
      update :=
        { synthesized_material := some r.newDocument
          feedback_messages := some messages'
          edit_count := some editCount
          needs_user_input := some (!action.continue_editing)
          agent_message :=
            if !action.continue_editing then
              some (some "Edit applied. What other changes are needed?".data)
            else none
          last_action := some (some "edit".data) } }

/-! ## HITL configuration (src/core/models/hitl_config.py,
src/core/services/hitl_manager.py) -/

/-- `HITLConfig` (src/core/models/hitl_config.py): flags for the two
gate-able nodes, both enabled by default. -/
structure HITLConfig where
  edit_material : Bool := true
  generating_questions : Bool := true
deriving DecidableEq

/-- `HITLConfig.is_enabled_for_node`: `getattr(self, node_name, False)`. -/
def isEnabledForNode (c : HITLConfig) (nodeName : Str) : Bool :=
  if nodeName = "edit_material".data then c.edit_material
  else if nodeName = "generating_questions".data then c.generating_questions
  else false

/-- The `HITLManager._configs` map, `thread_id -> config`, as an
association list in insertion order. -/
abbrev HITLState := List (Str × HITLConfig)

/-- First-match lookup in an association list (Python `dict` read under
the unique-keys invariant). -/
def lookupKey {α : Type} (k : Str) : List (Str × α) → Option α
  | [] => none
  | (k', v) :: rest => if k' = k then some v else lookupKey k rest

/-- `HITLManager.get_config`: returns the thread's config, creating and
storing a default one for unseen thread ids. -/
def getConfig (st : HITLState) (threadId : Str) : HITLConfig × HITLState :=
  match lookupKey threadId st with
  | some c => (c, st)
  | none => ({}, st ++ [(threadId, {})])

/-- `HITLManager.is_enabled(node_name, thread_id)` (the returned flag;
the default-config creation side effect does not change it). -/
def hitlIsEnabled (st : HITLState) (nodeName threadId : Str) : Bool :=
  isEnabledForNode (getConfig st threadId).1 nodeName

/-! ## `EditMaterialNode.__call__` (src/core/nodes/edit_material.py,
lines 346-379): the control flow up to the first model invocation -/

/-- What the head of `EditMaterialNode.__call__` does before any LLM
call: return a `Command`, suspend via `interrupt(...)`, or fall through
to the structured-output decision phase (the LLM-driven remainder, not
modelled further). -/
inductive EditOutcome where
  | cmd (c : Command)
  | interrupted (messages : List Str)
  | llmPhase (messages : List Msg)
deriving DecidableEq

/-- The head of `EditMaterialNode.__call__`: HITL check, empty-material
check, HITL-disabled skip, and the `interrupt` requesting user input.
`msg_to_user = state.agent_message or "..."` treats both `None` and the
empty string as absent (Python falsiness). -/
def editMaterialCall (hitl : HITLState) (threadId : Str)
    (state : GeneralState) : EditOutcome :=
  let hitlEnabled := hitlIsEnabled hitl "edit_material".data threadId
  let messages := state.feedback_messages
  if state.synthesized_material = [] then
    .cmd
      { goto := "generating_questions".data
        update := { agent_message := some (some "No material to edit".data) } }
  else if hitlEnabled = false then
    .cmd
      { goto := "generating_questions".data
        update :=
          { agent_message :=
              some (some "Material accepted without editing (autonomous mode)".data)
            last_action := some (some "skip_hitl".data) } }
  else if state.needs_user_input then
    let msgToUser :=
      match state.agent_message with
      | some m => if m = [] then "Which changes to make to the material? ".data else m
      | none => "Which changes to make to the material? ".data
    .interrupted [msgToUser]
  else
    .llmPhase messages

/-! ## `AnswerGenerationNode.__call__` (src/core/nodes/answers.py,
lines 44-134) and the fan-out merge -/

/-- `f"## {question}\n\n{response.content}"`. -/
def formatQnA (question answer : Str) : Str :=
  "## ".data ++ question ++ "\n\n".data ++ answer

/-- `f"## {question}\n\n**Answer generation error:** {str(e)}"`. -/
def answerErrorQnA (question err : Str) : Str :=
  "## ".data ++ question ++ "\n\n**Answer generation error:** ".data ++ err

/-- The single `questions_and_answers` entry one `answer_question` child
produces for its question: the formatted answer on success, the error
entry when the model call raises. -/
def answerEntry (answerer : Str → Except Str Str) (question : Str) : Str :=
  match answerer question with
  | .ok answer => formatQnA question answer
  | .error e => answerErrorQnA question e

/-- The `update={"questions_and_answers": [...]}` list one child returns
(`Command(goto="__end__", update=...)` in both the success and the error
branch): always exactly one entry. -/
def answerChildUpdate (answerer : Str → Except Str Str) (question : Str) : List Str :=
  [answerEntry answerer question]

/-- The accumulator merge declared on `questions_and_answers`
(`operator.add`): list concatenation. -/
def qnaMerge (a b : List Str) : List Str := a ++ b

/-- Folding the children's updates into the accumulator in the order the
children complete (`completionOrder` is the question list in completion
order). -/
def fanOutMerge (answerer : Str → Except Str Str) (completionOrder : List Str) :
    List Str :=
  completionOrder.foldl (fun acc q => qnaMerge acc (answerChildUpdate answerer q)) []

/-! ## `GraphManager` artifact bookkeeping and finalization
(src/core/core/graph_manager.py) -/

/-- One entry of `pending_urls` / `sent_urls`: `{url, label}`. -/
structure UrlEntry where
  url : Str
  label : Str
deriving DecidableEq

/-- `self.artifacts_data[thread_id]`:
`{session_id, pending_urls, sent_urls}` (the per-type URL maps are
association lists in insertion order, mirroring Python dicts). -/
structure ThreadArtifacts where
  session_id : Option Str := none
  pending_urls : List (Str × UrlEntry) := []
  sent_urls : List (Str × UrlEntry) := []
deriving DecidableEq

/-- Overwrite-or-append write to an association list (Python
`dict.__setitem__`: an existing key keeps its position, a new key is
appended). -/
def setKey {α : Type} (k : Str) (v : α) : List (Str × α) → List (Str × α)
  | [] => [(k, v)]
  | (k', v') :: rest => if k' = k then (k, v) :: rest else (k', v') :: setKey k v rest

/-- Remove a key from an association list (`dict.pop` / `del`). -/
def eraseKey {α : Type} (k : Str) (l : List (Str × α)) : List (Str × α) :=
  l.filter fun p => p.1 ≠ k

/-- The `GraphManager` per-thread mutable stores the verified claims
touch: the checkpoint rows of the Postgres saver (thread ids that have a
checkpoint; `adelete_thread` removes all rows of one id — the saver is an
external store, modelled from the spec's Checkpoint Store interface),
`self.artifacts_data`, and `self.user_sessions`. -/
structure GMState where
  checkpoints : List Str := []
  artifacts_data : List (Str × ThreadArtifacts) := []
  user_sessions : List (Str × Str) := []
deriving DecidableEq

/-- `GraphManager.delete_thread` (src/core/core/graph_manager.py, lines
169-184): delete the checkpoint, drop `artifacts_data[thread_id]` when
present, and `delete_session` (pop from `user_sessions`). -/
def deleteThread (gm : GMState) (threadId : Str) : GMState :=
  { checkpoints := gm.checkpoints.filter (fun t => t ≠ threadId)
    artifacts_data := eraseKey threadId gm.artifacts_data
    user_sessions := eraseKey threadId gm.user_sessions }

/-- The combined per-thread state of the process: the `GraphManager`
stores plus the `HITLManager` singleton's config map.  (They are separate
objects in the source; `delete_thread` only touches the former.) -/
structure World where
  gm : GMState := {}
  hitl : HITLState := []
deriving DecidableEq

/-- Thread deletion at the level of the whole process state:
`GraphManager.delete_thread` does not call into the `HITLManager`, so the
HITL config map is untouched. -/
def deleteThreadWorld (w : World) (threadId : Str) : World :=
  { gm := deleteThread w.gm threadId, hitl := w.hitl }

/-- The link formatting of `_get_pending_urls` (src/core/core/
graph_manager.py, lines 389-423): split the label at its first space into
emoji and text and render a Markdown link. -/
def formatLink (e : UrlEntry) : Str :=
  match firstOccIdx [' '] e.label with
  | some i =>
    e.label.take i ++ " [".data ++ e.label.drop (i + 1) ++ "](".data ++ e.url ++ ")".data
  | none => "[".data ++ e.label ++ "](".data ++ e.url ++ ")".data

/-- `GraphManager._get_pending_urls`: one combined Markdown message for
all pending URLs, or the empty list when nothing is pending. -/
def getPendingUrls (pending : List (Str × UrlEntry)) : List Str :=
  if pending = [] then []
  else
    ["📚 **Materials ready:**\n\n".data
      ++ joinLines (pending.map fun p => formatLink p.2)]

/-- `GraphManager._mark_urls_as_sent` (src/core/core/graph_manager.py,
lines 425-442): move each listed artifact type from `pending_urls` to
`sent_urls`. -/
def markUrlsAsSent (ta : ThreadArtifacts) (artifactTypes : List Str) : ThreadArtifacts :=
  artifactTypes.foldl
    (fun ta' k =>
      match lookupKey k ta'.pending_urls with
      | some v =>
        { ta' with
          pending_urls := eraseKey k ta'.pending_urls
          sent_urls := setKey k v ta'.sent_urls }
      | none => ta')
    ta

/-- The result `_finalize_workflow` returns to the caller. -/
structure FinalizeResult where
  session_id : Option Str
  result : List Str
deriving DecidableEq

/-- The fixed completion message of the happy path. -/
def doneMessage : Str := "Done 🎉 – send the next topic for study!".data

/-- The `web_ui_base_url`-based session link of the happy path
(`f"{base_url}/thread/{thread_id}/session/{session_id}"`). -/
def sessionLink (baseUrl threadId sessionId : Str) : Str :=
  "📁 All materials available [here](".data ++ baseUrl ++ "/thread/".data
    ++ threadId ++ "/session/".data ++ sessionId ++ ")".data

/-- `GraphManager._finalize_workflow` (src/core/core/graph_manager.py,
lines 770-871).  `interruptMsgs = some msgs` is the suspended case
(`final_state.interrupts` nonempty, `msgs` the interrupt payload's
message list); `none` is the completed case.  Tracing calls are
observability-only and omitted. -/
def finalizeWorkflow (w : World) (threadId : Str) (baseUrl : Str)
    (interruptMsgs : Option (List Str)) : World × FinalizeResult :=
  match interruptMsgs with
  | some msgs =>
    let ta := (lookupKey threadId w.gm.artifacts_data).getD {}
    let pendingMsgs := getPendingUrls ta.pending_urls
    if pendingMsgs = [] then
      (w, { session_id := ta.session_id, result := msgs })
    else
      let pendingTypes := ta.pending_urls.map Prod.fst
      let ta' := markUrlsAsSent ta pendingTypes
      let w' := { w with gm :=
        { w.gm with artifacts_data := setKey threadId ta' w.gm.artifacts_data } }
      (w', { session_id := ta.session_id, result := pendingMsgs ++ msgs })
  | none =>
    let sessionId := ((lookupKey threadId w.gm.artifacts_data).getD {}).session_id
    let finalMessage :=
      match sessionId with
      | some sid => [doneMessage, sessionLink baseUrl threadId sid]
      | none => [doneMessage]
    (deleteThreadWorld w threadId, { session_id := sessionId, result := finalMessage })

/-! ## Association list lemmas -/

theorem lookupKey_eraseKey {α : Type} (k : Str) (l : List (Str × α)) :
    lookupKey k (eraseKey k l) = none := by
  induction l with
  | nil => rfl
  | cons p rest ih =>
    by_cases h : p.1 = k
    · simpa [eraseKey, h] using ih
    · simpa [eraseKey, lookupKey, h] using ih

theorem eraseKey_eraseKey {α : Type} (k : Str) (l : List (Str × α)) :
    eraseKey k (eraseKey k l) = eraseKey k l := by
  simp [eraseKey, List.filter_filter]

theorem filter_ne_not_mem (t : Str) (l : List Str) :
    t ∉ l.filter (fun x => x ≠ t) := by
  intro h
  have := (List.mem_filter.mp h).2
  simp at this

theorem filter_ne_filter_ne (t : Str) (l : List Str) :
    (l.filter (fun x => x ≠ t)).filter (fun x => x ≠ t)
      = l.filter (fun x => x ≠ t) := by
  simp [List.filter_filter]

/-- C5 (amended), deletion effects: removing checkpoint, artifacts and
session bookkeeping, idempotently, while the HITL map stays as it was. -/
theorem deleteThread_effects (w : World) (threadId : Str) :
    threadId ∉ (deleteThreadWorld w threadId).gm.checkpoints
    ∧ lookupKey threadId (deleteThreadWorld w threadId).gm.artifacts_data = none
    ∧ lookupKey threadId (deleteThreadWorld w threadId).gm.user_sessions = none
    ∧ deleteThreadWorld (deleteThreadWorld w threadId) threadId
        = deleteThreadWorld w threadId
    ∧ (deleteThreadWorld w threadId).hitl = w.hitl := by
  refine ⟨filter_ne_not_mem _ _, lookupKey_eraseKey _ _, lookupKey_eraseKey _ _, ?_, rfl⟩
  simp [deleteThreadWorld, deleteThread, eraseKey_eraseKey, filter_ne_filter_ne]

/-! ## Fan-out merge lemmas -/

theorem foldl_append_singleton (f : Str → Str) :
    ∀ (l : List Str) (acc : List Str),
      l.foldl (fun a q => a ++ [f q]) acc = acc ++ l.map f := by
  intro l
  induction l with
  | nil => intro acc; simp
  | cons q rest ih => intro acc; simp [ih, List.append_assoc]

theorem fanOutMerge_eq_map (answerer : Str → Except Str Str)
    (order : List Str) :
    fanOutMerge answerer order = order.map (answerEntry answerer) := by
  have h :
      fanOutMerge answerer order
        = order.foldl (fun a q => a ++ [answerEntry answerer q]) [] := rfl
  rw [h, foldl_append_singleton]
  simp

/-! ## `fuzzy_find_and_replace` output shape -/

theorem fuzzy_success_or_failure (document target replacement : Str) (threshold : ℚ) :
    fuzzyFindAndReplace document target replacement threshold
        = ⟨document, false, none, 0⟩
    ∨ (fuzzyFindAndReplace document target replacement threshold).success = true := by
  unfold fuzzyFindAndReplace
  repeat'
    first
    | exact Or.inl rfl
    | exact Or.inr rfl
    | split
    | dsimp only


/-! ## `firstOccIdx` lemmas -/

theorem firstOccIdx_spec (pat : Str) :
    ∀ (s : Str) (i : Nat), firstOccIdx pat s = some i →
      s = s.take i ++ pat ++ s.drop (i + pat.length) := by
  intro s
  induction s with
  | nil =>
    intro i h
    unfold firstOccIdx at h
    split at h
    · rename_i hp
      cases h
      have hnil : pat = [] := List.prefix_nil.mp ( List.isPrefixOf_iff_prefix.mp hp)
      simp [hnil]
    · cases h
  | cons c rest ih =>
    intro i h
    unfold firstOccIdx at h
    split at h
    · rename_i hp
      cases h
      obtain ⟨t, ht⟩ := List.isPrefixOf_iff_prefix.mp hp
      simp only [List.take_zero, List.nil_append, Nat.zero_add]
      rw [← ht, List.drop_left]
    · rename_i hp
      cases hrec : firstOccIdx pat rest with
      | none => rw [hrec] at h; cases h
      | some j =>
        rw [hrec] at h
        simp at h
        subst h
        have h2 := ih j hrec
        calc c :: rest
            = c :: (rest.take j ++ pat ++ rest.drop (j + pat.length)) := by rw [← h2]
          _ = (c :: rest).take (j + 1) ++ pat
                ++ (c :: rest).drop (j + 1 + pat.length) := by
              rw [List.take_succ_cons, Nat.add_right_comm j 1 pat.length,
                List.drop_succ_cons]
              rfl

theorem firstOccIdx_isSome_of_head (pat s : Str) (h : pat.isPrefixOf s) :
    (firstOccIdx pat s).isSome := by
  cases s <;> simp [firstOccIdx, h]

theorem firstOccIdx_append (pat : Str) :
    ∀ (pre suf : Str), (firstOccIdx pat (pre ++ pat ++ suf)).isSome := by
  intro pre
  induction pre with
  | nil =>
    intro suf
    exact firstOccIdx_isSome_of_head pat (pat ++ suf)
      ( List.isPrefixOf_iff_prefix.mpr (by simp))
  | cons c rest ih =>
    intro suf
    show (firstOccIdx pat (c :: (rest ++ pat ++ suf))).isSome
    unfold firstOccIdx
    split
    · simp
    · simpa using ih suf

/-! ## `lev` and `findNearMatch` lemmas -/

theorem lev_self : ∀ s : Str, lev s s = 0 := by
  intro s
  induction s with
  | nil => simp [lev]
  | cons x xs ih => simp [lev, ih]

theorem mem_spans (i j n : Nat) (hij : i ≤ j) (hjn : j ≤ n) : (i, j) ∈ spans n := by
  unfold spans
  rw [List.mem_flatMap]
  refine ⟨i, by simp; omega, ?_⟩
  rw [List.mem_map]
  exact ⟨j - i, by simp; omega, by simp; omega⟩

theorem exact_candidate_mem (pat text pre suf : Str) (maxDist : Nat)
    (h : text = pre ++ pat ++ suf) :
    (⟨pre.length, pre.length + pat.length, 0, pat⟩ : FMatch)
      ∈ nearCandidates pat text maxDist := by
  have hseg : seg text pre.length (pre.length + pat.length) = pat := by
    unfold seg
    rw [h, List.append_assoc, List.drop_left]
    simp [List.take_left]
  unfold nearCandidates
  rw [List.mem_filterMap]
  refine ⟨(pre.length, pre.length + pat.length), ?_, ?_⟩
  · apply mem_spans
    · omega
    · have : text.length = pre.length + pat.length + suf.length := by
        simp [h]
        omega
      omega
  · simp only [hseg, lev_self, Nat.zero_le, if_pos]

/-- The fold inside `pickBest`, started from a nonempty accumulator:
the result is defined, lies among the accumulator and the list, and is
minimal in distance. -/
theorem pickBest_go (l : List FMatch) :
    ∀ b : FMatch,
      ∃ m, l.foldl
          (fun acc c =>
            match acc with
            | none => some c
            | some b' => if c.dist < b'.dist then some c else some b') (some b)
          = some m
        ∧ (m = b ∨ m ∈ l) ∧ m.dist ≤ b.dist ∧ ∀ c ∈ l, m.dist ≤ c.dist := by
  induction l with
  | nil => intro b; exact ⟨b, rfl, Or.inl rfl, le_refl _, by simp⟩
  | cons c rest ih =>
    intro b
    by_cases hc : c.dist < b.dist
    · obtain ⟨m, heq, hmem, hle, hall⟩ := ih c
      refine ⟨m, ?_, ?_, ?_, ?_⟩
      · simpa [hc] using heq
      · rcases hmem with h | h
        · exact Or.inr (by simp [h])
        · exact Or.inr (by simp [h])
      · exact le_trans hle (Nat.le_of_lt hc)
      · intro x hx
        rcases List.mem_cons.mp hx with h | h
        · rw [h]; exact hle
        · exact hall x h
    · obtain ⟨m, heq, hmem, hle, hall⟩ := ih b
      refine ⟨m, ?_, ?_, hle, ?_⟩
      · simpa [hc] using heq
      · rcases hmem with h | h
        · exact Or.inl h
        · exact Or.inr (by simp [h])
      · intro x hx
        rcases List.mem_cons.mp hx with h | h
        · rw [h]; exact le_trans hle (Nat.le_of_not_lt hc)
        · exact hall x h

theorem pickBest_spec (l : List FMatch) (hne : l ≠ []) :
    ∃ m, pickBest l = some m ∧ m ∈ l ∧ ∀ c ∈ l, m.dist ≤ c.dist := by
  cases l with
  | nil => exact absurd rfl hne
  | cons c rest =>
    obtain ⟨m, heq, hmem, hle, hall⟩ := pickBest_go rest c
    refine ⟨m, ?_, ?_, ?_⟩
    · simpa [pickBest] using heq
    · rcases hmem with h | h
      · simp [h]
      · simp [h]
    · intro x hx
      rcases List.mem_cons.mp hx with h | h
      · rw [h]; exact hle
      · exact hall x h

theorem findNearMatch_isSome (pat text pre suf : Str) (maxDist : Nat)
    (h : text = pre ++ pat ++ suf) :
    (findNearMatch pat text maxDist).isSome := by
  have hmem := exact_candidate_mem pat text pre suf maxDist h
  have hne : nearCandidates pat text maxDist ≠ [] :=
    fun he => by rw [he] at hmem; cases hmem
  obtain ⟨m, heq, _, _⟩ := pickBest_spec _ hne
  unfold findNearMatch
  rw [heq]
  rfl

theorem findNearMatch_dist_zero (pat text pre suf : Str) (maxDist : Nat) (m : FMatch)
    (h : text = pre ++ pat ++ suf)
    (hm : findNearMatch pat text maxDist = some m) : m.dist = 0 := by
  have hmem := exact_candidate_mem pat text pre suf maxDist h
  have hne : nearCandidates pat text maxDist ≠ [] :=
    fun he => by rw [he] at hmem; cases hmem
  obtain ⟨m', heq, _, hall⟩ := pickBest_spec _ hne
  have hmm : m' = m := by
    have h2 := hm
    unfold findNearMatch at h2
    rw [heq] at h2
    exact Option.some.inj h2
  subst hmm
  exact Nat.le_zero.mp (hall _ hmem)

/-! ## Verbatim-substring behaviour of `fuzzy_find_and_replace` -/

theorem fuzzy_verbatim (document target replacement pre suf : Str)
    (hne : target ≠ []) (hocc : document = pre ++ target ++ suf) :
    (fuzzyFindAndReplace document target replacement).success = true
    ∧ (target.length < 10 →
        (fuzzyFindAndReplace document target replacement).similarity = 1)
    ∧ (normalizeText target <:+: normalizeText document →
        (fuzzyFindAndReplace document target replacement).similarity = 1) := by
  have hdoc : ¬(target = [] ∨ document = []) := by
    rintro (h | h)
    · exact hne h
    · rw [hocc] at h
      rcases List.append_eq_nil.mp h with ⟨h1, -⟩
      rcases List.append_eq_nil.mp h1 with ⟨-, h2⟩
      exact hne h2
  by_cases hlen : target.length < 10
  · cases honorm : firstOccIdx (normalizeText target) (normalizeText document) with
    | some idx =>
      refine ⟨?_, fun _ => ?_, fun _ => ?_⟩ <;>
        simp only [fuzzyFindAndReplace, if_neg hdoc, if_pos hlen, honorm]
    | none =>
      have hsome := firstOccIdx_append target pre suf
      rw [← hocc] at hsome
      obtain ⟨idx, hidx⟩ := Option.isSome_iff_exists.mp hsome
      refine ⟨?_, fun _ => ?_, fun _ => ?_⟩ <;>
        simp only [fuzzyFindAndReplace, if_neg hdoc, if_pos hlen, honorm, hidx]
  · cases hfn : findNearMatch (normalizeText target) (normalizeText document)
        (maxLDist (normalizeText target).length (17 / 20)) with
    | some m =>
      refine ⟨?_, fun h => absurd h hlen, fun hinf => ?_⟩
      · simp only [fuzzyFindAndReplace, if_neg hdoc, if_neg hlen, hfn]
        split <;> rfl
      · obtain ⟨s, t, hst⟩ := hinf
        have hdist := findNearMatch_dist_zero (normalizeText target)
          (normalizeText document) s t _ m hst.symm hfn
        simp only [fuzzyFindAndReplace, if_neg hdoc, if_neg hlen, hfn]
        split <;> (simp only [hdist]; split <;> simp)
    | none =>
      have hsome := findNearMatch_isSome target document pre suf
        (maxLDist (normalizeText target).length (17 / 20)) hocc
      obtain ⟨m, hm⟩ := Option.isSome_iff_exists.mp hsome
      refine ⟨?_, fun h => absurd h hlen, fun hinf => ?_⟩
      · simp only [fuzzyFindAndReplace, if_neg hdoc, if_neg hlen, hfn, hm]
      · obtain ⟨s, t, hst⟩ := hinf
        have h2 := findNearMatch_isSome (normalizeText target) (normalizeText document)
          s t (maxLDist (normalizeText target).length (17 / 20)) hst.symm
        rw [hfn] at h2
        cases h2

/-! ## Idempotence machinery for `_normalize_text` -/

set_option maxHeartbeats 2000000 in
theorem unescape_no_amp : ∀ (s : Str), '&' ∉ s → unescape s = s := by
  intro s
  induction s with
  | nil => intro _; rfl
  | cons c rest ih =>
    intro h
    have hc : c ≠ '&' := fun e => h (by simp [e])
    have hr : '&' ∉ rest := fun m => h (List.mem_cons_of_mem _ m)
    rw [unescape.eq_def]
    dsimp only
    rw [if_neg hc, ih hr]

theorem splitLines_cons_nl (rest : Str) :
    splitLines ('\n' :: rest) = [] :: splitLines rest := rfl

theorem splitLines_cons_ne (c : Char) (rest : Str) (hc : c ≠ '\n')
    (l0 : Str) (ls : List Str) (hsp : splitLines rest = l0 :: ls) :
    splitLines (c :: rest) = (c :: l0) :: ls := by
  rw [splitLines.eq_def]
  split
  · rename_i heq
    cases heq
  · rename_i heq
    simp only [List.cons.injEq] at heq
    exact absurd heq.1 hc
  · rename_i heq
    simp only [List.cons.injEq] at heq
    obtain ⟨h1, h2⟩ := heq
    subst h1
    subst h2
    rw [hsp]

theorem splitLines_ne_nil (s : Str) : splitLines s ≠ [] := by
  induction s with
  | nil => simp [splitLines]
  | cons c rest ih =>
    by_cases hc : c = '\n'
    · subst hc
      rw [splitLines_cons_nl]
      simp
    · cases hsp : splitLines rest with
      | nil => exact absurd hsp ih
      | cons l0 ls =>
        rw [splitLines_cons_ne c rest hc l0 ls hsp]
        simp

theorem noNl_splitLines (s : Str) : ∀ l ∈ splitLines s, '\n' ∉ l := by
  induction s with
  | nil =>
    intro l hl
    simp [splitLines] at hl
    simp [hl]
  | cons c rest ih =>
    intro l hl
    by_cases hc : c = '\n'
    · subst hc
      rw [splitLines_cons_nl] at hl
      rcases List.mem_cons.mp hl with h | h
      · simp [h]
      · exact ih l h
    · cases hsp : splitLines rest with
      | nil => exact absurd hsp (splitLines_ne_nil rest)
      | cons l0 ls =>
        rw [splitLines_cons_ne c rest hc l0 ls hsp] at hl
        rcases List.mem_cons.mp hl with h | h
        · subst h
          intro hmem
          rcases List.mem_cons.mp hmem with h | h
          · exact hc h.symm
          · exact ih l0 (by rw [hsp]; exact List.mem_cons_self _ _) h
        · exact ih l (by rw [hsp]; exact List.mem_cons_of_mem _ h)

theorem mem_splitLines (s : Str) :
    ∀ l ∈ splitLines s, ∀ a ∈ l, a ∈ s := by
  induction s with
  | nil =>
    intro l hl a ha
    simp [splitLines] at hl
    subst hl
    cases ha
  | cons c rest ih =>
    intro l hl a ha
    by_cases hc : c = '\n'
    · subst hc
      rw [splitLines_cons_nl] at hl
      rcases List.mem_cons.mp hl with h | h
      · subst h; cases ha
      · exact List.mem_cons_of_mem _ (ih l h a ha)
    · cases hsp : splitLines rest with
      | nil => exact absurd hsp (splitLines_ne_nil rest)
      | cons l0 ls =>
        rw [splitLines_cons_ne c rest hc l0 ls hsp] at hl
        rcases List.mem_cons.mp hl with h | h
        · subst h
          rcases List.mem_cons.mp ha with h | h
          · simp [h]
          · exact List.mem_cons_of_mem _
              (ih l0 (by rw [hsp]; exact List.mem_cons_self _ _) a h)
        · exact List.mem_cons_of_mem _
            (ih l (by rw [hsp]; exact List.mem_cons_of_mem _ h) a ha)

theorem splitLines_single (l : Str) (h : '\n' ∉ l) : splitLines l = [l] := by
  induction l with
  | nil => rfl
  | cons c rest ih =>
    have hc : c ≠ '\n' := fun e => h (by simp [e])
    have hr : '\n' ∉ rest := fun m => h (List.mem_cons_of_mem _ m)
    exact splitLines_cons_ne c rest hc rest [] (ih hr)

theorem splitLines_append_nl (l rest : Str) (h : '\n' ∉ l) :
    splitLines (l ++ '\n' :: rest) = l :: splitLines rest := by
  induction l with
  | nil => simp [splitLines]
  | cons c l' ih =>
    have hc : c ≠ '\n' := fun e => h (by simp [e])
    have hl' : '\n' ∉ l' := fun m => h (List.mem_cons_of_mem _ m)
    show splitLines (c :: (l' ++ '\n' :: rest)) = (c :: l') :: splitLines rest
    exact splitLines_cons_ne c _ hc l' (splitLines rest) (ih hl')

theorem splitLines_joinLines (ls : List Str) (hne : ls ≠ [])
    (h : ∀ l ∈ ls, '\n' ∉ l) : splitLines (joinLines ls) = ls := by
  induction ls with
  | nil => exact absurd rfl hne
  | cons l ls ih =>
    cases ls with
    | nil =>
      show splitLines (joinLines [l]) = [l]
      exact splitLines_single l (h l (List.mem_cons_self _ _))
    | cons l2 ls2 =>
      show splitLines (l ++ '\n' :: joinLines (l2 :: ls2)) = l :: l2 :: ls2
      rw [splitLines_append_nl l _ (h l (List.mem_cons_self _ _))]
      rw [ih (by simp) (fun x hx => h x (List.mem_cons_of_mem _ hx))]

theorem mem_joinLines (ls : List Str) :
    ∀ a ∈ joinLines ls, a = '\n' ∨ ∃ l ∈ ls, a ∈ l := by
  induction ls with
  | nil => intro a ha; cases ha
  | cons l ls ih =>
    cases ls with
    | nil =>
      intro a ha
      exact Or.inr ⟨l, List.mem_cons_self _ _, ha⟩
    | cons l2 ls2 =>
      intro a ha
      rcases List.mem_append.mp ha with h | h
      · exact Or.inr ⟨l, List.mem_cons_self _ _, h⟩
      · rcases List.mem_cons.mp h with h | h
        · exact Or.inl h
        · rcases ih a h with h2 | ⟨l0, hl0, hal0⟩
          · exact Or.inl h2
          · exact Or.inr ⟨l0, List.mem_cons_of_mem _ hl0, hal0⟩

theorem mem_collapseWS :
    ∀ (l : Str), ∀ a ∈ collapseWS l, a = ' ' ∨ a ∈ l := by
  intro l
  induction l with
  | nil => intro a ha; cases ha
  | cons c t ih =>
    cases t with
    | nil =>
      intro a ha
      by_cases hc : isSpaceTab c
      · simp [collapseWS, hc] at ha
        exact Or.inl ha
      · simp [collapseWS, hc] at ha
        exact Or.inr (by simp [ha])
    | cons b rest =>
      intro a ha
      by_cases hc : isSpaceTab c
      · by_cases hb : isSpaceTab b
        · rw [show collapseWS (c :: b :: rest) = collapseWS (b :: rest) by
            simp [collapseWS, hc, hb]] at ha
          rcases ih a ha with h | h
          · exact Or.inl h
          · exact Or.inr (List.mem_cons_of_mem _ h)
        · rw [show collapseWS (c :: b :: rest) = ' ' :: collapseWS (b :: rest) by
            simp [collapseWS, hc, hb]] at ha
          rcases List.mem_cons.mp ha with h | h
          · exact Or.inl h
          · rcases ih a h with h2 | h2
            · exact Or.inl h2
            · exact Or.inr (List.mem_cons_of_mem _ h2)
      · rw [show collapseWS (c :: b :: rest) = c :: collapseWS (b :: rest) by
          simp [collapseWS, hc]] at ha
        rcases List.mem_cons.mp ha with h | h
        · exact Or.inr (by simp [h])
        · rcases ih a h with h2 | h2
          · exact Or.inl h2
          · exact Or.inr (List.mem_cons_of_mem _ h2)

/-- "No tab, and no two adjacent spaces": the shape
`re.sub(r'[ \t]+', ' ', line)` leaves behind. -/
def noWsRun : Str → Bool
  | [] => true
  | [c] => !(c = '\t')
  | a :: b :: rest => !(a = '\t') && !(a = ' ' && b = ' ') && noWsRun (b :: rest)

theorem noWsRun_head (b : Char) (rest : Str) (h : noWsRun (b :: rest) = true) :
    b ≠ '\t' := by
  cases rest <;> simp [noWsRun] at h <;> tauto

theorem noWsRun_cons (c : Char) (X : Str) (hc : c ≠ '\t')
    (h2 : ¬(c = ' ' ∧ X.head? = some ' ')) (hX : noWsRun X = true) :
    noWsRun (c :: X) = true := by
  cases X with
  | nil => simp [noWsRun, hc]
  | cons x xs =>
    simp only [noWsRun, Bool.and_eq_true]
    refine ⟨⟨by simp [hc], ?_⟩, hX⟩
    simp only [List.head?] at h2
    by_cases hcs : c = ' '
    · have hx : x ≠ ' ' := fun hx => h2 ⟨hcs, by rw [hx]⟩
      simp [hcs, hx]
    · simp [hcs]

theorem collapseWS_head (b : Char) (rest : Str) (hb : ¬ isSpaceTab b = true) :
    ∃ t', collapseWS (b :: rest) = b :: t' := by
  cases rest with
  | nil => exact ⟨[], by simp [collapseWS, hb]⟩
  | cons b2 r2 => exact ⟨collapseWS (b2 :: r2), by simp [collapseWS, hb]⟩

theorem collapseWS_noWsRun : ∀ l : Str, noWsRun (collapseWS l) = true := by
  intro l
  induction l with
  | nil => rfl
  | cons c t ih =>
    cases t with
    | nil =>
      by_cases hc : isSpaceTab c
      · simp [collapseWS, hc, noWsRun]
      · simp only [collapseWS, hc, if_false]
        simp only [isSpaceTab, Bool.or_eq_true, not_or] at hc
        simp only [noWsRun, Bool.not_eq_true']
        simp only [decide_eq_true_eq] at hc
        simp [hc.2]
    | cons b rest =>
      by_cases hc : isSpaceTab c
      · by_cases hb : isSpaceTab b
        · rw [show collapseWS (c :: b :: rest) = collapseWS (b :: rest) by
            simp [collapseWS, hc, hb]]
          exact ih
        · rw [show collapseWS (c :: b :: rest) = ' ' :: collapseWS (b :: rest) by
            simp [collapseWS, hc, hb]]
          obtain ⟨t', ht'⟩ := collapseWS_head b rest hb
          apply noWsRun_cons _ _ (by simp) _ ih
          rw [ht']
          rintro ⟨-, hh⟩
          simp only [List.head?] at hh
          apply hb
          simp [isSpaceTab, Option.some.inj hh]
      · rw [show collapseWS (c :: b :: rest) = c :: collapseWS (b :: rest) by
          simp [collapseWS, hc]]
        simp only [isSpaceTab, Bool.or_eq_true, not_or, decide_eq_true_eq] at hc
        apply noWsRun_cons _ _ (by simpa using hc.2) _ ih
        rintro ⟨hcs, -⟩
        exact hc.1 hcs

theorem noWsRun_append_left :
    ∀ (l t : Str), noWsRun (l ++ t) = true → noWsRun l = true := by
  intro l
  induction l with
  | nil => intro t _; rfl
  | cons a l' ih =>
    intro t h
    cases l' with
    | nil =>
      cases t with
      | nil => exact h
      | cons c t' =>
        simp only [List.cons_append, List.nil_append, noWsRun,
          Bool.and_eq_true] at h
        simp [noWsRun, h.1.1]
    | cons b l'' =>
      simp only [List.cons_append, noWsRun, Bool.and_eq_true] at h ⊢
      exact ⟨h.1, ih t h.2⟩

theorem collapseWS_of_noWsRun : ∀ l : Str, noWsRun l = true → collapseWS l = l := by
  intro l
  induction l with
  | nil => intro _; rfl
  | cons c t ih =>
    cases t with
    | nil =>
      intro h
      simp only [noWsRun, Bool.not_eq_true', decide_eq_false_iff_not] at h
      by_cases hc : c = ' '
      · simp [collapseWS, isSpaceTab, hc]
      · have hst : ¬ isSpaceTab c = true := by simp [isSpaceTab, hc, h]
        simp [collapseWS, hst]
    | cons b rest =>
      intro h
      simp only [noWsRun, Bool.and_eq_true, Bool.not_eq_true',
        decide_eq_false_iff_not, Bool.and_eq_false_imp,
        decide_eq_true_eq] at h
      obtain ⟨⟨hct, hpair⟩, hrest⟩ := h
      have hbt : b ≠ '\t' := noWsRun_head b rest hrest
      by_cases hc : isSpaceTab c
      · have hcs : c = ' ' := by
          simp only [isSpaceTab, Bool.or_eq_true, decide_eq_true_eq] at hc
          rcases hc with h | h
          · exact h
          · exact absurd h hct
        have hbs : b ≠ ' ' := fun hb => by simp [hcs, hb] at hpair
        have hbst : ¬ isSpaceTab b = true := by simp [isSpaceTab, hbs, hbt]
        rw [show collapseWS (c :: b :: rest) = ' ' :: collapseWS (b :: rest) by
          simp [collapseWS, hc, hbst]]
        rw [ih hrest, hcs]
      · rw [show collapseWS (c :: b :: rest) = c :: collapseWS (b :: rest) by
          simp [collapseWS, hc]]
        rw [ih hrest]

theorem rstrip_pre (s : Str) : rstrip s <+: s := by
  have h := List.dropWhile_suffix (l := s.reverse) (p := isPySpace)
  have h2 := List.reverse_prefix.mpr h
  rwa [List.reverse_reverse] at h2

theorem rstrip_idem (s : Str) : rstrip (rstrip s) = rstrip s := by
  unfold rstrip
  rw [List.reverse_reverse, List.dropWhile_idempotent]

theorem mem_rstrip (s : Str) : ∀ a ∈ rstrip s, a ∈ s :=
  fun _ ha => (rstrip_pre s).sublist.subset ha

theorem normalizeLine_idem (l : Str) :
    normalizeLine (normalizeLine l) = normalizeLine l := by
  have h1 : noWsRun (collapseWS l) = true := collapseWS_noWsRun l
  obtain ⟨t, ht⟩ := rstrip_pre (collapseWS l)
  have h2 : noWsRun (rstrip (collapseWS l)) = true := by
    apply noWsRun_append_left _ t
    rw [ht]
    exact h1
  show rstrip (collapseWS (rstrip (collapseWS l))) = rstrip (collapseWS l)
  rw [collapseWS_of_noWsRun _ h2, rstrip_idem]

theorem mem_normalizeLine (l : Str) :
    ∀ a ∈ normalizeLine l, a = ' ' ∨ a ∈ l := by
  intro a ha
  exact mem_collapseWS l a (mem_rstrip _ a ha)

theorem crlfToLf_cons_ne (c : Char) (rest : Str) (hc : c ≠ '\r') :
    crlfToLf (c :: rest) = c :: crlfToLf rest := by
  rw [crlfToLf.eq_def]
  split
  · rename_i heq
    cases heq
  · rename_i heq
    simp only [List.cons.injEq] at heq
    exact absurd heq.1 hc
  · rename_i heq
    simp only [List.cons.injEq] at heq
    obtain ⟨h1, h2⟩ := heq
    subst h1
    subst h2
    rfl

theorem crlfToLf_cr_cons (c2 : Char) (rest2 : Str) (hc2 : c2 ≠ '\n') :
    crlfToLf ('\r' :: c2 :: rest2) = '\r' :: crlfToLf (c2 :: rest2) := by
  rw [crlfToLf.eq_def]
  split
  · rename_i heq
    cases heq
  · rename_i heq
    simp only [List.cons.injEq] at heq
    exact absurd heq.2.1 hc2
  · rename_i heq
    simp only [List.cons.injEq] at heq
    obtain ⟨h1, h2⟩ := heq
    subst h1
    subst h2
    rfl

theorem crlfToLf_id : ∀ (s : Str), '\r' ∉ s → crlfToLf s = s := by
  intro s
  induction s with
  | nil => intro _; rfl
  | cons c rest ih =>
    intro h
    have hc : c ≠ '\r' := fun e => h (by simp [e])
    have hr : '\r' ∉ rest := fun m => h (List.mem_cons_of_mem _ m)
    rw [crlfToLf_cons_ne c rest hc, ih hr]

theorem mem_crlfToLf : ∀ (s : Str), ∀ a ∈ crlfToLf s, a = '\n' ∨ a ∈ s := by
  intro s
  induction s using crlfToLf.induct with
  | case1 => intro a ha; cases ha
  | case2 rest ih =>
    intro a ha
    rw [show crlfToLf ('\r' :: '\n' :: rest) = '\n' :: crlfToLf rest from rfl] at ha
    rcases List.mem_cons.mp ha with h | h
    · exact Or.inl h
    · rcases ih a h with h2 | h2
      · exact Or.inl h2
      · exact Or.inr (by simp [h2])
  | case3 c rest hne ih =>
    intro a ha
    have hstep : crlfToLf (c :: rest) = c :: crlfToLf rest := by
      by_cases hc : c = '\r'
      · subst hc
        cases rest with
        | nil => rfl
        | cons c2 rest2 =>
          have hc2 : c2 ≠ '\n' := fun he => hne rest2 rfl (by rw [he])
          exact crlfToLf_cr_cons c2 rest2 hc2
      · exact crlfToLf_cons_ne c rest hc
    rw [hstep] at ha
    rcases List.mem_cons.mp ha with h | h
    · exact Or.inr (by simp [h])
    · rcases ih a h with h2 | h2
      · exact Or.inl h2
      · exact Or.inr (List.mem_cons_of_mem _ h2)

theorem crToLf_id (s : Str) (h : '\r' ∉ s) : crToLf s = s := by
  unfold crToLf
  conv_rhs => rw [← List.map_id s]
  apply List.map_congr_left
  intro a ha
  have ha' : a ≠ '\r' := fun e => h (e ▸ ha)
  simp [ha']

theorem no_cr_crToLf (s : Str) : '\r' ∉ crToLf s := by
  intro hm
  obtain ⟨c, hc, he⟩ := List.mem_map.mp hm
  by_cases h : c = '\r' <;> simp [h] at he

theorem mem_crToLf (s : Str) : ∀ a ∈ crToLf s, a = '\n' ∨ a ∈ s := by
  intro a ha
  obtain ⟨c, hc, he⟩ := List.mem_map.mp ha
  by_cases h : c = '\r'
  · simp [h] at he
    exact Or.inl he.symm
  · simp [h] at he
    exact Or.inr (he ▸ hc)


/-- Idempotence of `_normalize_text` on texts with no HTML-escape
character: the whitespace/line-ending part of normalization is a
projection, and unescaping is the identity when no `&` occurs. -/
theorem normalizeText_idem_no_amp (s : Str) (h : '&' ∉ s) :
    normalizeText (normalizeText s) = normalizeText s := by
  by_cases hs : s = []
  · subst hs; rfl
  · have h1 : normalizeText s
        = joinLines (List.map normalizeLine (splitLines (crToLf (crlfToLf s)))) := by
      unfold normalizeText
      rw [if_neg hs, unescape_no_amp s h]
    by_cases hrnil : normalizeText s = []
    · rw [hrnil]
      rfl
    · have hlsne : List.map normalizeLine (splitLines (crToLf (crlfToLf s))) ≠ [] := by
        intro he
        exact splitLines_ne_nil _ (List.map_eq_nil_iff.mp he)
      have hnoNl : ∀ l ∈ List.map normalizeLine (splitLines (crToLf (crlfToLf s))),
          '\n' ∉ l := by
        intro l hl
        obtain ⟨l0, hl0, rfl⟩ := List.mem_map.mp hl
        intro hmem
        rcases mem_normalizeLine l0 '\n' hmem with h2 | h2
        · exact absurd h2 (by decide)
        · exact noNl_splitLines _ l0 hl0 h2
      have hchar : ∀ a ∈ normalizeText s,
          a = '\n' ∨ a = ' ' ∨ a ∈ crToLf (crlfToLf s) := by
        intro a ha
        rw [h1] at ha
        rcases mem_joinLines _ a ha with h2 | ⟨l, hl, hal⟩
        · exact Or.inl h2
        · obtain ⟨l0, hl0, rfl⟩ := List.mem_map.mp hl
          rcases mem_normalizeLine l0 a hal with h2 | h2
          · exact Or.inr (Or.inl h2)
          · exact Or.inr (Or.inr (mem_splitLines _ l0 hl0 a h2))
      have hamp : '&' ∉ normalizeText s := by
        intro hm
        rcases hchar '&' hm with h2 | h2 | h2
        · exact absurd h2 (by decide)
        · exact absurd h2 (by decide)
        · rcases mem_crToLf _ '&' h2 with h3 | h3
          · exact absurd h3 (by decide)
          · rcases mem_crlfToLf _ '&' h3 with h4 | h4
            · exact absurd h4 (by decide)
            · exact h h4
      have hcr : '\r' ∉ normalizeText s := by
        intro hm
        rcases hchar '\r' hm with h2 | h2 | h2
        · exact absurd h2 (by decide)
        · exact absurd h2 (by decide)
        · exact no_cr_crToLf _ h2
      calc normalizeText (normalizeText s)
          = joinLines (List.map normalizeLine (splitLines (crToLf (crlfToLf
              (unescape (normalizeText s)))))) := by
            rw [normalizeText.eq_def, if_neg hrnil]
        _ = joinLines (List.map normalizeLine (splitLines (normalizeText s))) := by
            rw [unescape_no_amp _ hamp, crlfToLf_id _ hcr, crToLf_id _ hcr]
        _ = joinLines (List.map normalizeLine (List.map normalizeLine
              (splitLines (crToLf (crlfToLf s))))) := by
            rw [h1, splitLines_joinLines _ hlsne hnoNl]
        _ = joinLines (List.map normalizeLine (splitLines (crToLf (crlfToLf s)))) := by
            rw [List.map_map]
            congr 1
            apply List.map_congr_left
            intro a _
            exact normalizeLine_idem a
        _ = normalizeText s := h1.symm


/-! ## Arithmetic of the `max_distance` bounds -/

theorem pyInt_mul_inv (n a b : ℕ) (hb : 0 < b) :
    pyInt ((n : ℚ) * ((a : ℚ) / (b : ℚ))) = ((n * a / b : ℕ) : ℤ) := by
  have h0 : (0 : ℚ) ≤ (n : ℚ) * ((a : ℚ) / (b : ℚ)) := by positivity
  unfold pyInt
  rw [if_pos h0]
  rw [show (n : ℚ) * ((a : ℚ) / (b : ℚ)) = (((n * a : ℕ) : ℤ) : ℚ) / ((b : ℕ) : ℚ) by
    push_cast; ring]
  rw [Rat.floor_intCast_div_natCast]
  exact (Int.natCast_div (n * a) b).symm

theorem maxLDist_base (n : ℕ) :
    pyInt ((n : ℚ) * (1 - 17 / 20)) = ((3 * n / 20 : ℕ) : ℤ) := by
  rw [show (1 - 17 / 20 : ℚ) = (3 : ℚ) / (20 : ℚ) by norm_num]
  rw [show ((3 : ℚ) / (20 : ℚ)) = (((3:ℕ) : ℚ) / ((20:ℕ) : ℚ)) by norm_num]
  rw [pyInt_mul_inv n 3 20 (by norm_num)]
  rw [Nat.mul_comm]

theorem maxLDist_prop (n : ℕ) :
    pyInt ((n : ℚ) * (1 / 100)) = ((n / 100 : ℕ) : ℤ) := by
  rw [show ((1 : ℚ) / (100 : ℚ)) = (((1:ℕ) : ℚ) / ((100:ℕ) : ℚ)) by norm_num]
  rw [pyInt_mul_inv n 1 100 (by norm_num)]
  rw [Nat.mul_one]

/-- Characterization of the `max_distance` computation over the default
threshold 0.85 in plain natural-number arithmetic: `int(len * 0.15)` is
the truncated `3 * len / 20`, the over-1000 branch is a cap at 100, and
the 100-to-1000 branch is a raise (a `max`, not a `min`) toward
`min(len / 100, 50)`. -/
theorem maxLDist_char (n : ℕ) :
    maxLDist n (17 / 20)
      = if 1000 < n then min (max 1 (3 * n / 20)) 100
        else if 100 < n then max (max 1 (3 * n / 20)) (min (n / 100) 50)
        else max 1 (3 * n / 20) := by
  simp only [maxLDist, maxLDist_base, maxLDist_prop]
  split_ifs <;> omega

theorem maxLDist_regimes (n : ℕ) :
    1 ≤ maxLDist n (17 / 20)
    ∧ (1000 < n → maxLDist n (17 / 20) ≤ 100)
    ∧ (n ≤ 100 → maxLDist n (17 / 20) = max 1 (3 * n / 20))
    ∧ (100 < n → n ≤ 1000 →
        maxLDist n (17 / 20) = max (max 1 (3 * n / 20)) (min (n / 100) 50)) := by
  rw [maxLDist_char]
  refine ⟨?_, ?_, ?_, ?_⟩ <;> (intros; split_ifs <;> omega)


/-! ## `SecurityGuard` graceful-degradation lemmas -/

theorem validateAndClean_error (detect : Str → Except Unit InjectionResult)
    (threshold : ℚ) (text : Str) (h : detect text = .error ()) :
    validateAndClean detect threshold text = text := by
  unfold validateAndClean
  split
  · rfl
  · rw [h]

theorem validateAndClean_no_injection (detect : Str → Except Unit InjectionResult)
    (threshold : ℚ) (text : Str) (r : InjectionResult)
    (h : detect text = .ok r) (hr : r.has_injection = false) :
    validateAndClean detect threshold text = text := by
  unfold validateAndClean
  split
  · rfl
  · rw [h]
    dsimp only
    simp [hr]

theorem validateAndClean_remove_fails (detect : Str → Except Unit InjectionResult)
    (threshold : ℚ) (text : Str) (r : InjectionResult)
    (h : detect text = .ok r)
    (hrm : fuzzyRemove threshold text r.injection_text = none) :
    validateAndClean detect threshold text = text := by
  unfold validateAndClean
  split
  · rfl
  · rw [h]
    dsimp only
    split
    · rw [hrm]
    · rfl

theorem fuzzyRemove_short_exact (threshold : ℚ) (document target : Str)
    (hlen : target.length < 10) (cleaned : Str)
    (h : fuzzyRemove threshold document target = some cleaned) :
    target <:+: document := by
  by_cases hgd : (target = [] ∨ document = [])
  · unfold fuzzyRemove at h
    rw [if_pos hgd] at h
    cases h
  · unfold fuzzyRemove at h
    rw [if_neg hgd, if_pos hlen] at h
    cases hocc : firstOccIdx target document with
    | none => rw [hocc] at h; cases h
    | some i =>
      have hspec := firstOccIdx_spec target document i hocc
      exact ⟨document.take i, document.drop (i + target.length), hspec.symm⟩

theorem removeMaxDist_cap (targetLen : Nat) (threshold : ℚ)
    (h : 100 < targetLen) : removeMaxDist targetLen threshold ≤ 15 := by
  unfold removeMaxDist
  rw [if_pos h]
  omega

/-! ## Draining `pending_urls` into `sent_urls` -/

theorem eraseKey_not_mem {α : Type} (k : Str) :
    ∀ (l : List (Str × α)), k ∉ l.map Prod.fst → eraseKey k l = l := by
  intro l
  induction l with
  | nil => intro _; rfl
  | cons p rest ih =>
    intro h
    have h1 : p.1 ≠ k := by
      intro e
      apply h
      rw [List.map_cons, ← e]
      exact List.mem_cons_self _ _
    have h2 : k ∉ rest.map Prod.fst := by
      intro m
      exact h (by rw [List.map_cons]; exact List.mem_cons_of_mem _ m)
    have h3 := ih h2
    simp only [eraseKey, List.filter_cons] at h3 ⊢
    rw [if_pos (by simpa using h1), h3]

theorem lookupKey_setKey_self {α : Type} (k : Str) (v : α) (l : List (Str × α)) :
    lookupKey k (setKey k v l) = some v := by
  induction l with
  | nil => simp [setKey, lookupKey]
  | cons p rest ih =>
    by_cases h : p.1 = k
    · simp [setKey, lookupKey, h]
    · simp [setKey, lookupKey, h, ih]

theorem lookupKey_setKey_other {α : Type} (k0 k : Str) (v : α)
    (l : List (Str × α)) (hne : k0 ≠ k) :
    lookupKey k0 (setKey k v l) = lookupKey k0 l := by
  have hne' : ¬ k = k0 := fun e => hne e.symm
  induction l with
  | nil => simp [setKey, lookupKey, hne']
  | cons p rest ih =>
    by_cases h : p.1 = k
    · simp [setKey, lookupKey, h, hne']
    · simp [setKey, lookupKey, h, ih]

theorem markUrlsAsSent_all :
    ∀ (p : List (Str × UrlEntry)), (p.map Prod.fst).Nodup →
    ∀ (sid : Option Str) (sent : List (Str × UrlEntry)),
      (markUrlsAsSent ⟨sid, p, sent⟩ (p.map Prod.fst)).pending_urls = []
      ∧ (markUrlsAsSent ⟨sid, p, sent⟩ (p.map Prod.fst)).session_id = sid
      ∧ (∀ k v, lookupKey k p = some v →
          lookupKey k (markUrlsAsSent ⟨sid, p, sent⟩ (p.map Prod.fst)).sent_urls
            = some v)
      ∧ (∀ k0, k0 ∉ p.map Prod.fst →
          lookupKey k0 (markUrlsAsSent ⟨sid, p, sent⟩ (p.map Prod.fst)).sent_urls
            = lookupKey k0 sent) := by
  intro p
  induction p with
  | nil =>
    intro _ sid sent
    refine ⟨rfl, rfl, ?_, ?_⟩
    · intro k v hkv
      cases hkv
    · intro k0 _
      rfl
  | cons kv p' ih =>
    intro h sid sent
    obtain ⟨k, v⟩ := kv
    have hnotin : k ∉ p'.map Prod.fst := by
      simp only [List.map_cons, List.nodup_cons] at h
      exact h.1
    have hnd : (p'.map Prod.fst).Nodup := by
      simp only [List.map_cons, List.nodup_cons] at h
      exact h.2
    have hlk : lookupKey k ((k, v) :: p') = some v := by simp [lookupKey]
    have herase : eraseKey k ((k, v) :: p') = p' := by
      rw [show eraseKey k ((k, v) :: p') = eraseKey k p' by simp [eraseKey]]
      exact eraseKey_not_mem k p' hnotin
    have hstep : markUrlsAsSent ⟨sid, (k, v) :: p', sent⟩ (((k, v) :: p').map Prod.fst)
        = markUrlsAsSent ⟨sid, p', setKey k v sent⟩ (p'.map Prod.fst) := by
      simp only [markUrlsAsSent, List.map_cons, List.foldl_cons]
      congr 1
      dsimp only
      rw [hlk]
      dsimp only
      rw [herase]
    obtain ⟨ih1, ih2, ih3, ih4⟩ := ih hnd sid (setKey k v sent)
    refine ⟨?_, ?_, ?_, ?_⟩
    · rw [hstep]; exact ih1
    · rw [hstep]; exact ih2
    · intro k' v' hkv
      rw [hstep]
      by_cases hk : k = k'
      · subst hk
        have hv : v' = v := by
          simp [lookupKey] at hkv
          exact hkv.symm
        rw [hv, ih4 k hnotin]
        exact lookupKey_setKey_self k v sent
      · have hk' : ¬ k = k' := hk
        have hlk2 : lookupKey k' p' = some v' := by
          simpa [lookupKey, hk'] using hkv
        exact ih3 k' v' hlk2
    · intro k0 hk0
      rw [hstep]
      have hk0' : k0 ∉ p'.map Prod.fst := by
        intro m
        exact hk0 (by rw [List.map_cons]; exact List.mem_cons_of_mem _ m)
      have hk0k : k0 ≠ k := by
        intro e
        exact hk0 (by rw [List.map_cons, e]; exact List.mem_cons_self _ _)
      rw [ih4 k0 hk0']
      exact lookupKey_setKey_other k0 k v sent hk0k


theorem getPendingUrls_ne (p : List (Str × UrlEntry)) (h : p ≠ []) :
    getPendingUrls p ≠ [] := by
  simp [getPendingUrls, h]

theorem finalize_drains (w : World) (tid baseUrl : Str) (msgs : List Str)
    (ta : ThreadArtifacts) (hta : lookupKey tid w.gm.artifacts_data = some ta)
    (hnd : (ta.pending_urls.map Prod.fst).Nodup)
    (hpe : ta.pending_urls ≠ []) :
    (finalizeWorkflow w tid baseUrl (some msgs)).2.result
        = getPendingUrls ta.pending_urls ++ msgs
    ∧ (finalizeWorkflow w tid baseUrl (some msgs)).2.session_id = ta.session_id
    ∧ ((lookupKey tid
          (finalizeWorkflow w tid baseUrl (some msgs)).1.gm.artifacts_data).getD
        {}).pending_urls = []
    ∧ ∀ k v, lookupKey k ta.pending_urls = some v →
        lookupKey k ((lookupKey tid
            (finalizeWorkflow w tid baseUrl (some msgs)).1.gm.artifacts_data).getD
          {}).sent_urls = some v := by
  obtain ⟨sid, p, sent⟩ := ta
  have hne := getPendingUrls_ne p hpe
  have hred : finalizeWorkflow w tid baseUrl (some msgs)
      = (⟨⟨w.gm.checkpoints,
            setKey tid (markUrlsAsSent ⟨sid, p, sent⟩ (p.map Prod.fst))
              w.gm.artifacts_data,
            w.gm.user_sessions⟩, w.hitl⟩,
          ⟨sid, getPendingUrls p ++ msgs⟩) := by
    unfold finalizeWorkflow
    rw [hta]
    dsimp only [Option.getD]
    rw [if_neg hne]
  obtain ⟨m1, m2, m3, m4⟩ := markUrlsAsSent_all p hnd sid sent
  rw [hred]
  refine ⟨rfl, rfl, ?_, ?_⟩
  · dsimp only
    rw [lookupKey_setKey_self]
    dsimp only [Option.getD]
    exact m1
  · intro k v hkv
    dsimp only
    rw [lookupKey_setKey_self]
    dsimp only [Option.getD]
    exact m3 k v hkv

theorem finalize_completion (w : World) (tid baseUrl : Str) :
    lookupKey tid (finalizeWorkflow w tid baseUrl none).1.gm.artifacts_data = none
    ∧ ((finalizeWorkflow w tid baseUrl none).2.result = [doneMessage]
        ∨ ∃ sid, ((lookupKey tid w.gm.artifacts_data).getD {}).session_id = some sid
            ∧ (finalizeWorkflow w tid baseUrl none).2.result
                = [doneMessage, sessionLink baseUrl tid sid]) := by
  constructor
  · show lookupKey tid (eraseKey tid w.gm.artifacts_data) = none
    exact lookupKey_eraseKey tid w.gm.artifacts_data
  · cases hsid : ((lookupKey tid w.gm.artifacts_data).getD {}).session_id with
    | none =>
      left
      unfold finalizeWorkflow
      dsimp only
      rw [hsid]
    | some sid =>
      right
      refine ⟨sid, rfl, ?_⟩
      unfold finalizeWorkflow
      dsimp only
      rw [hsid]


/-- The spec's concrete normalization example:
`normalize("A &amp; B  C\r\n") == "A & B C\n"`. -/
theorem normalizeText_spec_example :
    normalizeText "A &amp; B  C\r\n".data = "A & B C\n".data := by decide

/-! ## Claim theorems -/

/-- C1 (amended): if `target` occurs verbatim as a substring of
`document`, `fuzzy_find_and_replace` reports success; the similarity is
exactly 1.0 for targets shorter than 10 characters, and also whenever the
normalized target still occurs verbatim in the normalized document.  (The
original claim's "new document equals the document with exactly that
occurrence replaced" is false: the heuristic offset mapping shifts
interior replacement spans — see the counterexample.) -/
theorem claim_C1 (document target replacement pre suf : Str)
    (hne : target ≠ []) (hocc : document = pre ++ target ++ suf) :
    (fuzzyFindAndReplace document target replacement).success = true
    ∧ (target.length < 10 →
        (fuzzyFindAndReplace document target replacement).similarity = 1)
    ∧ (normalizeText target <:+: normalizeText document →
        (fuzzyFindAndReplace document target replacement).similarity = 1) :=
  fuzzy_verbatim document target replacement pre suf hne hocc

/-- C1 counterexample: at document `"hello bob"`, target `"bob"`,
replacement `"X"` the call returns success with similarity 1.0 — but the
new document is `"helloXb"`, which is not the document with any
occurrence of `"bob"` replaced by `"X"` (all start positions 0..9 are
checked; the expected result were `"hello X"`).  The position-mapping
walk of `_find_original_position` returns `index - 1` for interior
matches, eating the character before the occurrence. -/
theorem claim_C1_counterexample :
    fuzzyFindAndReplace "hello bob".data "bob".data "X".data
      = ⟨"helloXb".data, true, some "bob".data, 1⟩
    ∧ ∀ i ∈ List.range 10,
        ¬(("hello bob".data = ("hello bob".data.take i) ++ "bob".data
              ++ ("hello bob".data.drop (i + 3)))
          ∧ (fuzzyFindAndReplace "hello bob".data "bob".data "X".data).newDocument
              = ("hello bob".data.take i) ++ "X".data
                ++ ("hello bob".data.drop (i + 3))) := by
  constructor
  · decide
  · decide

/-- C1 witness: concrete instantiation of the amended claim. -/
theorem claim_C1_witness :
    ("bc".data ≠ ([] : Str) ∧ "abcd".data = "a".data ++ "bc".data ++ "d".data)
    ∧ ((fuzzyFindAndReplace "abcd".data "bc".data "Z".data).success = true
        ∧ ("bc".data.length < 10 →
            (fuzzyFindAndReplace "abcd".data "bc".data "Z".data).similarity = 1)
        ∧ (normalizeText "bc".data <:+: normalizeText "abcd".data →
            (fuzzyFindAndReplace "abcd".data "bc".data "Z".data).similarity = 1)) :=
  ⟨⟨by decide, by decide⟩,
    claim_C1 "abcd".data "bc".data "Z".data "a".data "d".data (by decide) (by decide)⟩

/-- C2 (amended): `_normalize_text` is idempotent on every string that
contains no `&` (no HTML character reference can appear or be produced).
On strings with nested references idempotence fails, because
`html.unescape` decodes one level per pass — see the counterexample. -/
theorem claim_C2 (s : Str) (h : '&' ∉ s) :
    normalizeText (normalizeText s) = normalizeText s :=
  normalizeText_idem_no_amp s h

/-- C2 counterexample: `normalize("&amp;amp;") = "&amp;"` but
`normalize(normalize("&amp;amp;")) = "&"`, so normalization is not
idempotent as claimed. -/
theorem claim_C2_counterexample :
    normalizeText "&amp;amp;".data = "&amp;".data
    ∧ normalizeText (normalizeText "&amp;amp;".data) = "&".data
    ∧ normalizeText (normalizeText "&amp;amp;".data)
        ≠ normalizeText "&amp;amp;".data := by
  refine ⟨by decide, by decide, by decide⟩

/-- C2 witness: idempotence on a concrete `&`-free string exercising
whitespace collapse, tabs, CRLF and trailing blanks. -/
theorem claim_C2_witness :
    ('&' ∉ "a  b\t c \r\nd ".data)
    ∧ normalizeText (normalizeText "a  b\t c \r\nd ".data)
        = normalizeText "a  b\t c \r\nd ".data :=
  ⟨by decide, claim_C2 "a  b\t c \r\nd ".data (by decide)⟩

/-- C3 (amended): at the default threshold 0.85, the search distance of
`fuzzy_find_and_replace` is `max(1, int(len·0.15))` with truncating
`int` (not rounding); it is capped at 100 only for lengths over 1000; for
100 < len ≤ 1000 the code applies a `max` with `min(int(len·0.01), 50)` —
a lower bound, not the cap the claim states — so values above 50 occur. -/
theorem claim_C3 (n : ℕ) :
    1 ≤ maxLDist n (17 / 20)
    ∧ (1000 < n → maxLDist n (17 / 20) ≤ 100)
    ∧ (n ≤ 100 → maxLDist n (17 / 20) = max 1 (3 * n / 20))
    ∧ (100 < n → n ≤ 1000 →
        maxLDist n (17 / 20) = max (max 1 (3 * n / 20)) (min (n / 100) 50)) :=
  maxLDist_regimes n

/-- C3 counterexample: at normalized-target length 500 (over 100, so the
claimed "proportional cap ≤ 50" would apply) the computed distance is 75,
not at most 50; and at length 13 the code's truncation gives 1 while the
claimed `round` formula gives 2. -/
theorem claim_C3_counterexample :
    maxLDist 500 (17 / 20) = 75
    ∧ ¬(maxLDist 500 (17 / 20) ≤ 50)
    ∧ maxLDist 13 (17 / 20) = 1
    ∧ max 1 (round ((13 : ℚ) * (1 - 17 / 20))) = 2 := by
  have h500 : maxLDist 500 (17 / 20) = 75 := by rw [maxLDist_char]; decide
  have h13 : maxLDist 13 (17 / 20) = 1 := by rw [maxLDist_char]; decide
  refine ⟨h500, by rw [h500]; decide, h13, ?_⟩
  rw [show ((13 : ℚ) * (1 - 17 / 20)) = 39 / 20 by norm_num]
  norm_num [round_eq]

/-- C3 witness: the amended bounds at concrete lengths. -/
theorem claim_C3_witness :
    maxLDist 1500 (17 / 20) ≤ 100 ∧ 1 ≤ maxLDist 500 (17 / 20) :=
  ⟨(claim_C3 1500).2.1 (by decide), (claim_C3 500).1⟩

/-- C4 (amended): before returning a suspension message, every
`pending_urls` entry is drained into the message (the formatted link
block is prepended) and moved into `sent_urls`; but on the final
completion message nothing is drained — the message is the fixed
completion text plus a session-level link, and the thread's bookkeeping
is deleted, discarding still-pending URLs (see the counterexample). -/
theorem claim_C4 (w : World) (tid baseUrl : Str) (msgs : List Str)
    (ta : ThreadArtifacts) (hta : lookupKey tid w.gm.artifacts_data = some ta)
    (hnd : (ta.pending_urls.map Prod.fst).Nodup)
    (hpe : ta.pending_urls ≠ []) :
    ((finalizeWorkflow w tid baseUrl (some msgs)).2.result
        = getPendingUrls ta.pending_urls ++ msgs
      ∧ ((lookupKey tid
            (finalizeWorkflow w tid baseUrl (some msgs)).1.gm.artifacts_data).getD
          {}).pending_urls = []
      ∧ ∀ k v, lookupKey k ta.pending_urls = some v →
          lookupKey k ((lookupKey tid
              (finalizeWorkflow w tid baseUrl (some msgs)).1.gm.artifacts_data).getD
            {}).sent_urls = some v)
    ∧ (lookupKey tid (finalizeWorkflow w tid baseUrl none).1.gm.artifacts_data = none
      ∧ ((finalizeWorkflow w tid baseUrl none).2.result = [doneMessage]
          ∨ ∃ sid, ((lookupKey tid w.gm.artifacts_data).getD {}).session_id = some sid
              ∧ (finalizeWorkflow w tid baseUrl none).2.result
                  = [doneMessage, sessionLink baseUrl tid sid])) := by
  obtain ⟨d1, d2, d3, d4⟩ := finalize_drains w tid baseUrl msgs ta hta hnd hpe
  exact ⟨⟨d1, d3, d4⟩, finalize_completion w tid baseUrl⟩

/-- C4 counterexample: a thread with one still-pending URL that
completes.  The claim says the completion message drains the pending URL
into the message and moves it into `sent_urls`; in fact the completion
message is the fixed text plus the session link (the pending URL
`"http://u"` appears in no returned message), and the bookkeeping is
deleted outright, so nothing reaches `sent_urls`. -/
theorem claim_C4_counterexample :
    (finalizeWorkflow
        ⟨⟨["T".data],
          [("T".data, ⟨some "s1".data,
            [("questions".data, ⟨"http://u".data, "Q".data⟩)], []⟩)],
          [("T".data, "s1".data)]⟩, []⟩
        "T".data "http://b".data none).2.result
      = [doneMessage, sessionLink "http://b".data "T".data "s1".data]
    ∧ (¬ ∃ m ∈ (finalizeWorkflow
        ⟨⟨["T".data],
          [("T".data, ⟨some "s1".data,
            [("questions".data, ⟨"http://u".data, "Q".data⟩)], []⟩)],
          [("T".data, "s1".data)]⟩, []⟩
        "T".data "http://b".data none).2.result, "http://u".data <:+: m)
    ∧ lookupKey "T".data (finalizeWorkflow
        ⟨⟨["T".data],
          [("T".data, ⟨some "s1".data,
            [("questions".data, ⟨"http://u".data, "Q".data⟩)], []⟩)],
          [("T".data, "s1".data)]⟩, []⟩
        "T".data "http://b".data none).1.gm.artifacts_data = none := by
  refine ⟨by decide, by decide, by decide⟩

/-- C4 witness: concrete suspension drains the single pending URL. -/
theorem claim_C4_witness :
    (finalizeWorkflow
        ⟨⟨[], [("T".data, ⟨none, [("q".data, ⟨"u".data, "L".data⟩)], []⟩)], []⟩, []⟩
        "T".data "b".data (some ["hi".data])).2.result
      = getPendingUrls [("q".data, ⟨"u".data, "L".data⟩)] ++ ["hi".data] :=
  (claim_C4
    ⟨⟨[], [("T".data, ⟨none, [("q".data, ⟨"u".data, "L".data⟩)], []⟩)], []⟩, []⟩
    "T".data "b".data ["hi".data]
    ⟨none, [("q".data, ⟨"u".data, "L".data⟩)], []⟩
    (by decide) (by decide) (by decide)).1.1

/-- C5 (amended): deleting a thread removes the checkpoint, the artifact
bookkeeping and the session id, and the operation is idempotent — but it
does not evict the thread's HITL configuration, which survives deletion
untouched (see the counterexample). -/
theorem claim_C5 (w : World) (threadId : Str) :
    threadId ∉ (deleteThreadWorld w threadId).gm.checkpoints
    ∧ lookupKey threadId (deleteThreadWorld w threadId).gm.artifacts_data = none
    ∧ lookupKey threadId (deleteThreadWorld w threadId).gm.user_sessions = none
    ∧ deleteThreadWorld (deleteThreadWorld w threadId) threadId
        = deleteThreadWorld w threadId
    ∧ (deleteThreadWorld w threadId).hitl = w.hitl :=
  deleteThread_effects w threadId

/-- C5 counterexample: a thread with a non-default HITL configuration is
deleted; the claim says the HITL configuration is removed as part of the
same logical operation, but it is still present (with its configured
value) afterwards — `delete_thread` never calls into the HITL manager. -/
theorem claim_C5_counterexample :
    lookupKey "T".data
        (deleteThreadWorld
          ⟨⟨["T".data], [("T".data, ⟨none, [], []⟩)], [("T".data, "s".data)]⟩,
            [("T".data, ⟨false, true⟩)]⟩ "T".data).hitl
      = some ⟨false, true⟩
    ∧ ¬(lookupKey "T".data
        (deleteThreadWorld
          ⟨⟨["T".data], [("T".data, ⟨none, [], []⟩)], [("T".data, "s".data)]⟩,
            [("T".data, ⟨false, true⟩)]⟩ "T".data).hitl = none) := by
  refine ⟨by decide, by decide⟩

/-- C6: when the edit target is not found, `handle_edit_action` loops
back to the edit node awaiting user input with `last_action =
"edit_error"` and a human-readable message, and loses no prior state: the
synthesized material, edit count, answers and previously accumulated
feedback messages are unchanged, the only message change being the
appended error notice. -/
theorem claim_C6 (state : GeneralState) (action : EditDetails) (messages : List Msg)
    (hfail : (fuzzyFindAndReplace state.synthesized_material
        action.old_text action.new_text).success = false) :
    (handleEditAction state action messages).goto = "edit_material".data
    ∧ (applyUpdate state (handleEditAction state action messages).update).last_action
        = some "edit_error".data
    ∧ (applyUpdate state (handleEditAction state action messages).update).needs_user_input
        = true
    ∧ (applyUpdate state (handleEditAction state action messages).update).agent_message
        = some editErrorText
    ∧ (applyUpdate state (handleEditAction state action messages).update).synthesized_material
        = state.synthesized_material
    ∧ (applyUpdate state (handleEditAction state action messages).update).edit_count
        = state.edit_count
    ∧ (applyUpdate state (handleEditAction state action messages).update).questions_and_answers
        = state.questions_and_answers
    ∧ (applyUpdate state (handleEditAction state action messages).update).feedback_messages
        = messages ++ [.system ("[EDIT ERROR]: ".data ++ editErrorText)] := by
  simp [handleEditAction, hfail, applyUpdate]

/-- C6 witness: a concrete failing edit (target absent from the
material) preserves material, count and history. -/
theorem claim_C6_witness :
    ((fuzzyFindAndReplace "hello".data "zzz".data "Y".data).success = false)
    ∧ (applyUpdate
        { synthesized_material := "hello".data,
          feedback_messages := [.human "hi".data], edit_count := 2 }
        (handleEditAction
          { synthesized_material := "hello".data,
            feedback_messages := [.human "hi".data], edit_count := 2 }
          ⟨"zzz".data, "Y".data, true⟩ [.human "hi".data]).update).edit_count = 2 :=
  ⟨by decide,
    (claim_C6
      { synthesized_material := "hello".data,
        feedback_messages := [.human "hi".data], edit_count := 2 }
      ⟨"zzz".data, "Y".data, true⟩ [.human "hi".data] (by decide)).2.2.2.2.2.1⟩

/-- C7: each `answer_question` child contributes exactly one
`questions_and_answers` entry (answer or error entry); merging the
children's updates in any completion order yields exactly as many entries
as questions, and the merged contents are the same up to permutation; the
`operator.add` merge is associative. -/
theorem claim_C7 (answerer : Str → Except Str Str) (qs completionOrder : List Str)
    (hperm : completionOrder.Perm qs) :
    (∀ q, (answerChildUpdate answerer q).length = 1)
    ∧ (fanOutMerge answerer completionOrder).length = qs.length
    ∧ (fanOutMerge answerer completionOrder).Perm (fanOutMerge answerer qs)
    ∧ (∀ a b c, qnaMerge (qnaMerge a b) c = qnaMerge a (qnaMerge b c)) := by
  refine ⟨fun q => rfl, ?_, ?_, fun a b c => List.append_assoc a b c⟩
  · rw [fanOutMerge_eq_map, List.length_map]
    exact hperm.length_eq
  · rw [fanOutMerge_eq_map, fanOutMerge_eq_map]
    exact hperm.map _

/-- C7 witness: three questions completing in a different order still
give exactly three entries. -/
theorem claim_C7_witness :
    (["q2".data, "q3".data, "q1".data].Perm ["q1".data, "q2".data, "q3".data])
    ∧ (fanOutMerge (fun _ => .ok "A".data)
        ["q2".data, "q3".data, "q1".data]).length
      = (["q1".data, "q2".data, "q3".data] : List Str).length :=
  ⟨by decide,
    (claim_C7 (fun _ => .ok "A".data) ["q1".data, "q2".data, "q3".data]
      ["q2".data, "q3".data, "q1".data] (by decide)).2.1⟩

/-- C8: with the HITL configuration disabling `edit_material` for the
thread and synthesized material present, the node immediately returns a
command to `generating_questions` with `last_action = "skip_hitl"`, and
no interrupt is issued. -/
theorem claim_C8 (hitl : HITLState) (threadId : Str) (state : GeneralState)
    (cfg : HITLConfig) (hcfg : lookupKey threadId hitl = some cfg)
    (hdis : cfg.edit_material = false) (hmat : state.synthesized_material ≠ []) :
    editMaterialCall hitl threadId state
      = .cmd ⟨"generating_questions".data,
          { agent_message :=
              some (some "Material accepted without editing (autonomous mode)".data)
            last_action := some (some "skip_hitl".data) }⟩
    ∧ ∀ msgs, editMaterialCall hitl threadId state ≠ .interrupted msgs := by
  have hcmd : editMaterialCall hitl threadId state
      = .cmd ⟨"generating_questions".data,
          { agent_message :=
              some (some "Material accepted without editing (autonomous mode)".data)
            last_action := some (some "skip_hitl".data) }⟩ := by
    simp [editMaterialCall, hitlIsEnabled, getConfig, isEnabledForNode,
      hcfg, hdis, hmat]
  exact ⟨hcmd, fun msgs => by rw [hcmd]; simp⟩

/-- C8 witness: concrete thread with `edit_material` disabled. -/
theorem claim_C8_witness :
    editMaterialCall [("T".data, ⟨false, true⟩)] "T".data
        { synthesized_material := "m".data }
      = .cmd ⟨"generating_questions".data,
          { agent_message :=
              some (some "Material accepted without editing (autonomous mode)".data)
            last_action := some (some "skip_hitl".data) }⟩ :=
  (claim_C8 [("T".data, ⟨false, true⟩)] "T".data
    { synthesized_material := "m".data } ⟨false, true⟩
    (by decide) (by decide) (by decide)).1

/-- C9: `validate_and_clean` degrades gracefully — a failing model call,
a no-injection verdict, or an impossible removal all return the original
text unchanged; `_fuzzy_remove` accepts only exact occurrences for
targets shorter than 10 characters; and for targets longer than 100
characters its search distance is capped at 15. -/
theorem claim_C9 (detect : Str → Except Unit InjectionResult) (threshold : ℚ)
    (text : Str) :
    (detect text = .error () → validateAndClean detect threshold text = text)
    ∧ (∀ r, detect text = .ok r → r.has_injection = false →
        validateAndClean detect threshold text = text)
    ∧ (∀ r, detect text = .ok r →
        fuzzyRemove threshold text r.injection_text = none →
        validateAndClean detect threshold text = text)
    ∧ (∀ target cleaned, target.length < 10 →
        fuzzyRemove threshold text target = some cleaned → target <:+: text)
    ∧ (∀ len, 100 < len → removeMaxDist len threshold ≤ 15) :=
  ⟨validateAndClean_error detect threshold text,
    fun r h hr => validateAndClean_no_injection detect threshold text r h hr,
    fun r h hrm => validateAndClean_remove_fails detect threshold text r h hrm,
    fun target cleaned hlen h => fuzzyRemove_short_exact threshold text target hlen cleaned h,
    fun len hlen => removeMaxDist_cap len threshold hlen⟩

/-- C9 witness: a failing detection call passes the text through. -/
theorem claim_C9_witness :
    validateAndClean (fun _ => .error ()) (17 / 20) "hello".data = "hello".data :=
  (claim_C9 (fun _ => .error ()) (17 / 20) "hello".data).1 rfl

/-- C10: `fuzzy_find_and_replace` is failure-atomic — whenever it reports
failure it returns exactly the original document, `success = false`, no
matched text and similarity 0.0.  (Totality holds by construction of the
embedding: every branch, including the `except` handlers, returns a
tuple.) -/
theorem claim_C10 (document target replacement : Str) (threshold : ℚ)
    (h : (fuzzyFindAndReplace document target replacement threshold).success = false) :
    fuzzyFindAndReplace document target replacement threshold
      = ⟨document, false, none, 0⟩ := by
  rcases fuzzy_success_or_failure document target replacement threshold with heq | hs
  · exact heq
  · rw [hs] at h
    cases h

/-- C10 witness: a non-matching short target fails atomically. -/
theorem claim_C10_witness :
    ((fuzzyFindAndReplace "abc".data "zzz".data "r".data (17 / 20)).success = false)
    ∧ fuzzyFindAndReplace "abc".data "zzz".data "r".data (17 / 20)
        = ⟨"abc".data, false, none, 0⟩ :=
  ⟨by decide, claim_C10 "abc".data "zzz".data "r".data (17 / 20) (by decide)⟩

end BaseLibrary
